import Mathlib

/-!
Verification of the contract-index core of `ethabi` (`src/ethabi/src/contract.rs`).

The Rust code folds a sequence of `Operation` values into a `Contract` holding
an optional constructor, a `BTreeMap<String, Function>`, a
`BTreeMap<String, Vec<Event>>` and a fallback flag, and exposes by-name lookup
and iteration.  A `BTreeMap` is modelled as an association list whose keys are
kept strictly sorted (same contents, same key-sorted iteration order).
-/

namespace EthAbi

/-- The `Constructor` payload.  Its fields other than identity are irrelevant
to the index, so it is modelled as an opaque numeric tag. -/
structure Constructor where
  id : Nat
  deriving DecidableEq, Repr

/-- The `Function` payload: a name plus an opaque remainder. -/
structure Function where
  name : String
  id : Nat
  deriving DecidableEq, Repr

/-- The `Event` payload: a name plus an opaque remainder. -/
structure Event where
  name : String
  id : Nat
  deriving DecidableEq, Repr

/-- `Operation`: one parsed ABI entry, as in `operation.rs`. -/
inductive Operation where
  | constructorOp : Constructor → Operation
  | functionOp : Function → Operation
  | eventOp : Event → Operation
  | fallbackOp : Operation
  deriving DecidableEq, Repr

/-- `BTreeMap::get` on the association-list model. -/
def btreeGet {α : Type} (m : List (String × α)) (k : String) : Option α :=
  match m with
  | [] => none
  | (k', v) :: rest => if k = k' then some v else btreeGet rest k

/-- `BTreeMap::insert`: replace the value at an existing key, otherwise place
the new binding at its sorted position.  Keys are compared in codepoint
lexicographic order (the order of Rust's `Ord for String`). -/
def btreeInsert {α : Type} (k : String) (v : α) : List (String × α) → List (String × α)
  | [] => [(k, v)]
  | (k', v') :: rest =>
    if k = k' then (k, v) :: rest
    else if k.data < k'.data then (k, v) :: (k', v') :: rest
    else (k', v') :: btreeInsert k v rest

/-- `events.entry(name).or_default().push(event)`: append to the sequence at
the key, creating a one-element sequence at the sorted position if absent. -/
def eventsPush (k : String) (e : Event) : List (String × List Event) → List (String × List Event)
  | [] => [(k, [e])]
  | (k', es) :: rest =>
    if k = k' then (k', es ++ [e]) :: rest
    else if k.data < k'.data then (k, [e]) :: (k', es) :: rest
    else (k', es) :: eventsPush k e rest

/-- The `Contract` aggregate (fields as in the Rust struct). -/
structure Contract where
  constructor : Option Constructor
  functions : List (String × Function)
  events : List (String × List Event)
  fallback : Bool
  deriving DecidableEq, Repr

/-- The empty contract built at the start of `ContractVisitor::visit_seq`. -/
def emptyContract : Contract :=
  { constructor := none, functions := [], events := [], fallback := false }

/-- One iteration of the `while let` loop in `ContractVisitor::visit_seq`. -/
def applyOperation (c : Contract) : Operation → Contract
  | .constructorOp ctor => { c with constructor := some ctor }
  | .functionOp f => { c with functions := btreeInsert f.name f c.functions }
  | .eventOp e => { c with events := eventsPush e.name e c.events }
  | .fallbackOp => { c with fallback := true }

/-- `ContractVisitor::visit_seq`: fold the operation stream into a contract. -/
def visit_seq (ops : List Operation) : Contract :=
  ops.foldl applyOperation emptyContract

/-- `Contract::function`. -/
def Contract.function (c : Contract) (name : String) : Except String Function :=
  match btreeGet c.functions name with
  | some f => .ok f
  | none => .error "Invalid name"

/-- `Contract::event`: `self.events.get(name).into_iter().flatten().next()`. -/
def Contract.event (c : Contract) (name : String) : Except String Event :=
  match ((btreeGet c.events name).toList.flatten).head? with
  | some e => .ok e
  | none => .error "Invalid name"

/-- `Contract::events_by_name`. -/
def Contract.events_by_name (c : Contract) (name : String) : Except String (List Event) :=
  match btreeGet c.events name with
  | some es => .ok es
  | none => .error "Invalid name"

/-- `Contract::constructor` (the accessor method). -/
def Contract.getConstructor (c : Contract) : Option Constructor :=
  c.constructor

/-- `Contract::functions`: the `Functions` iterator, i.e. the map's values in
its internal key order. -/
def Contract.functionsIter (c : Contract) : List Function :=
  c.functions.map Prod.snd

/-- `Contract::events`: the `Events` iterator, i.e. the flattened values of
the events map in its internal key order. -/
def Contract.eventsIter (c : Contract) : List Event :=
  (c.events.map Prod.snd).flatten

/-- `Contract::fallback` (the accessor method). -/
def Contract.getFallback (c : Contract) : Bool :=
  c.fallback

/-- Names of the `Function` entries of the stream, in order. -/
def functionNames (ops : List Operation) : List String :=
  ops.filterMap fun op =>
    match op with
    | .functionOp f => some f.name
    | _ => none

/-- The `Function` entries named `n`, in stream order. -/
def functionsNamed (n : String) (ops : List Operation) : List Function :=
  ops.filterMap fun op =>
    match op with
    | .functionOp f => if f.name = n then some f else none
    | _ => none

/-- Names of the `Event` entries of the stream, in order. -/
def eventNames (ops : List Operation) : List String :=
  ops.filterMap fun op =>
    match op with
    | .eventOp e => some e.name
    | _ => none

/-- The `Event` entries named `n`, in stream order. -/
def eventsNamed (n : String) (ops : List Operation) : List Event :=
  ops.filterMap fun op =>
    match op with
    | .eventOp e => if e.name = n then some e else none
    | _ => none

/-- All `Event` entries of the stream, in order. -/
def allEvents (ops : List Operation) : List Event :=
  ops.filterMap fun op =>
    match op with
    | .eventOp e => some e
    | _ => none

/-- The `Constructor` entries of the stream, in order. -/
def constructorsOf (ops : List Operation) : List Constructor :=
  ops.filterMap fun op =>
    match op with
    | .constructorOp ctor => some ctor
    | _ => none

/-- Keys of an association list. -/
def keysOf {α : Type} (m : List (String × α)) : List String :=
  m.map Prod.fst

/-- The strict-sortedness invariant of the `BTreeMap` model. -/
def mapSorted {α : Type} (m : List (String × α)) : Prop :=
  m.Pairwise fun p q => p.1.data < q.1.data

/-- Whether an operation is the `Fallback` variant. -/
def Operation.isFallback : Operation → Bool
  | .fallbackOp => true
  | _ => false

/-- Key-value coherence of the functions map: each stored function lies under
its own name. -/
def functionsWF (m : List (String × Function)) : Prop :=
  ∀ p ∈ m, Function.name p.2 = p.1

/-- Key-value coherence of the events map: every bucket is non-empty and each
stored event lies under its own name. -/
def eventsWF (m : List (String × List Event)) : Prop :=
  ∀ p ∈ m, p.2 ≠ [] ∧ ∀ e ∈ p.2, Event.name e = p.1

/-- The structural invariant maintained by `visit_seq`. -/
def ContractWF (c : Contract) : Prop :=
  mapSorted c.functions ∧ mapSorted c.events ∧ functionsWF c.functions ∧ eventsWF c.events

/-- `some l` when `l` is non-empty, `none` when it is empty. -/
def listOpt {α : Type} : List α → Option (List α)
  | [] => none
  | l => some l

/-- Small input used by several concrete witnesses. -/
def demoMissingOps : List Operation :=
  [.functionOp ⟨"transfer", 0⟩, .eventOp ⟨"Transfer", 0⟩]

/-- Two same-name functions, the second later in the stream. -/
def demoFnOps : List Operation :=
  [.functionOp ⟨"transfer", 0⟩, .functionOp ⟨"transfer", 1⟩]

/-- Two same-name events, in stream order. -/
def demoEvOps : List Operation :=
  [.eventOp ⟨"Transfer", 0⟩, .eventOp ⟨"Transfer", 1⟩]

theorem mem_keys_btreeInsert {α : Type} (k n : String) (v : α) (m : List (String × α)) :
    n ∈ keysOf (btreeInsert k v m) ↔ n = k ∨ n ∈ keysOf m := by
  induction m with
  | nil => simp [btreeInsert, keysOf]
  | cons p rest ih =>
    obtain ⟨k', v'⟩ := p
    by_cases hk : k = k'
    · subst hk
      simp [btreeInsert, keysOf]
    · by_cases hlt : k.data < k'.data
      · simp [btreeInsert, hk, hlt, keysOf]
      · simp only [btreeInsert, if_neg hk, if_neg hlt, keysOf, List.map_cons, List.mem_cons]
        rw [keysOf] at ih
        rw [ih]
        tauto

theorem mem_keys_eventsPush (k n : String) (e : Event) (m : List (String × List Event)) :
    n ∈ keysOf (eventsPush k e m) ↔ n = k ∨ n ∈ keysOf m := by
  induction m with
  | nil => simp [eventsPush, keysOf]
  | cons p rest ih =>
    obtain ⟨k', es⟩ := p
    by_cases hk : k = k'
    · subst hk
      simp [eventsPush, keysOf]
    · by_cases hlt : k.data < k'.data
      · simp [eventsPush, hk, hlt, keysOf]
      · simp only [eventsPush, if_neg hk, if_neg hlt, keysOf, List.map_cons, List.mem_cons]
        rw [keysOf] at ih
        rw [ih]
        tauto

theorem btreeGet_eq_none_of_not_mem {α : Type} {m : List (String × α)} {n : String}
    (h : n ∉ keysOf m) : btreeGet m n = none := by
  induction m with
  | nil => rfl
  | cons p rest ih =>
    obtain ⟨k', v'⟩ := p
    simp only [keysOf, List.map_cons, List.mem_cons, not_or] at h
    simp only [btreeGet, if_neg h.1]
    exact ih h.2

theorem mem_keys_of_btreeGet_eq_some {α : Type} {m : List (String × α)} {n : String} {v : α}
    (h : btreeGet m n = some v) : n ∈ keysOf m := by
  by_contra hmem
  rw [btreeGet_eq_none_of_not_mem hmem] at h
  exact Option.noConfusion h

theorem mapSorted_btreeInsert {α : Type} (k : String) (v : α) {m : List (String × α)}
    (h : mapSorted m) : mapSorted (btreeInsert k v m) := by
  induction m with
  | nil => simp [btreeInsert, mapSorted]
  | cons p rest ih =>
    obtain ⟨k', v'⟩ := p
    rw [mapSorted, List.pairwise_cons] at h
    obtain ⟨hhead, hrest⟩ := h
    by_cases hk : k = k'
    · subst hk
      rw [btreeInsert, if_pos rfl, mapSorted, List.pairwise_cons]
      exact ⟨hhead, hrest⟩
    · by_cases hlt : k.data < k'.data
      · rw [btreeInsert, if_neg hk, if_pos hlt, mapSorted, List.pairwise_cons]
        refine ⟨?_, ?_⟩
        · intro q hq
          rcases List.mem_cons.mp hq with hq | hq
          · subst hq; exact hlt
          · exact lt_trans hlt (hhead q hq)
        · rw [List.pairwise_cons]
          exact ⟨hhead, hrest⟩
      · have hgt : k'.data < k.data := by
          rcases lt_or_gt_of_ne (fun hdata => hk (String.toList_inj.mp hdata)) with h' | h'
          · exact absurd h' hlt
          · exact h'
        rw [btreeInsert, if_neg hk, if_neg hlt, mapSorted, List.pairwise_cons]
        refine ⟨?_, ih hrest⟩
        intro q hq
        have hqk : q.1 ∈ keysOf (btreeInsert k v rest) := List.mem_map_of_mem Prod.fst hq
        rcases (mem_keys_btreeInsert k q.1 v rest).mp hqk with hq1 | hq1
        · rw [hq1]; exact hgt
        · obtain ⟨q', hq', hq'1⟩ := List.mem_map.mp hq1
          have := hhead q' hq'
          rw [hq'1] at this
          exact this

theorem mapSorted_eventsPush (k : String) (e : Event) {m : List (String × List Event)}
    (h : mapSorted m) : mapSorted (eventsPush k e m) := by
  induction m with
  | nil => simp [eventsPush, mapSorted]
  | cons p rest ih =>
    obtain ⟨k', es⟩ := p
    rw [mapSorted, List.pairwise_cons] at h
    obtain ⟨hhead, hrest⟩ := h
    by_cases hk : k = k'
    · subst hk
      rw [eventsPush, if_pos rfl, mapSorted, List.pairwise_cons]
      exact ⟨hhead, hrest⟩
    · by_cases hlt : k.data < k'.data
      · rw [eventsPush, if_neg hk, if_pos hlt, mapSorted, List.pairwise_cons]
        refine ⟨?_, ?_⟩
        · intro q hq
          rcases List.mem_cons.mp hq with hq | hq
          · subst hq; exact hlt
          · exact lt_trans hlt (hhead q hq)
        · rw [List.pairwise_cons]
          exact ⟨hhead, hrest⟩
      · have hgt : k'.data < k.data := by
          rcases lt_or_gt_of_ne (fun hdata => hk (String.toList_inj.mp hdata)) with h' | h'
          · exact absurd h' hlt
          · exact h'
        rw [eventsPush, if_neg hk, if_neg hlt, mapSorted, List.pairwise_cons]
        refine ⟨?_, ih hrest⟩
        intro q hq
        have hqk : q.1 ∈ keysOf (eventsPush k e rest) := List.mem_map_of_mem Prod.fst hq
        rcases (mem_keys_eventsPush k q.1 e rest).mp hqk with hq1 | hq1
        · rw [hq1]; exact hgt
        · obtain ⟨q', hq', hq'1⟩ := List.mem_map.mp hq1
          have := hhead q' hq'
          rw [hq'1] at this
          exact this

theorem btreeGet_head_lt {α : Type} {k' : String} {v' : α} {rest : List (String × α)}
    (h : mapSorted ((k', v') :: rest)) {k : String} (hlt : k.data < k'.data) :
    btreeGet ((k', v') :: rest) k = none := by
  rw [mapSorted, List.pairwise_cons] at h
  have hne : ¬ k = k' := by
    intro hkk
    subst hkk
    exact lt_irrefl _ hlt
  rw [btreeGet, if_neg hne]
  apply btreeGet_eq_none_of_not_mem
  intro hmem
  obtain ⟨q, hq, hq1⟩ := List.mem_map.mp hmem
  have := h.1 q hq
  rw [hq1] at this
  exact lt_irrefl _ (lt_trans hlt this)

theorem btreeGet_btreeInsert {α : Type} (k n : String) (v : α) (m : List (String × α)) :
    btreeGet (btreeInsert k v m) n = if n = k then some v else btreeGet m n := by
  induction m with
  | nil => simp [btreeInsert, btreeGet]
  | cons p rest ih =>
    obtain ⟨k', v'⟩ := p
    by_cases hk : k = k'
    · subst hk
      by_cases hn : n = k <;> simp [btreeInsert, btreeGet, hn]
    · by_cases hlt : k.data < k'.data
      · by_cases hn : n = k <;> simp [btreeInsert, btreeGet, hk, hlt, hn]
      · have hk' : ¬ k' = k := fun h' => hk h'.symm
        rw [btreeInsert, if_neg hk, if_neg hlt]
        by_cases hn' : n = k'
        · have hnk : ¬ n = k := fun h' => hk (h'.symm.trans hn')
          simp [btreeGet, hn', hnk, hk']
        · by_cases hn : n = k
          · subst hn
            simp [btreeGet, hn', hk, hk', ih]
          · simp [btreeGet, hn', hn, hk, hk', ih]

theorem btreeGet_eventsPush (k n : String) (e : Event) {m : List (String × List Event)}
    (h : mapSorted m) :
    btreeGet (eventsPush k e m) n =
      if n = k then some ((btreeGet m k).getD [] ++ [e]) else btreeGet m n := by
  induction m with
  | nil => by_cases hn : n = k <;> simp [eventsPush, btreeGet, hn]
  | cons p rest ih =>
    obtain ⟨k', es⟩ := p
    have hrest : mapSorted rest := by
      rw [mapSorted, List.pairwise_cons] at h
      exact h.2
    by_cases hk : k = k'
    · subst hk
      by_cases hn : n = k <;> simp [eventsPush, btreeGet, hn]
    · by_cases hlt : k.data < k'.data
      · have hnone : btreeGet ((k', es) :: rest) k = none := btreeGet_head_lt h hlt
        rw [eventsPush, if_neg hk, if_pos hlt]
        by_cases hn : n = k
        · rw [if_pos hn, hnone, btreeGet, if_pos hn]
          rfl
        · rw [if_neg hn, btreeGet, if_neg hn]
      · have hk' : ¬ k' = k := fun h' => hk h'.symm
        rw [eventsPush, if_neg hk, if_neg hlt]
        by_cases hn' : n = k'
        · have hnk : ¬ n = k := fun h' => hk (h'.symm.trans hn')
          simp [btreeGet, hn', hnk, hk']
        · by_cases hn : n = k
          · subst hn
            simp [btreeGet, hn', hk, hk', ih hrest]
          · simp [btreeGet, hn', hn, hk, hk', ih hrest]

theorem mem_btreeInsert {α : Type} {k : String} {v : α} {m : List (String × α)}
    {p : String × α} (hp : p ∈ btreeInsert k v m) : p = (k, v) ∨ p ∈ m := by
  induction m with
  | nil => simp [btreeInsert] at hp; exact Or.inl hp
  | cons q rest ih =>
    obtain ⟨k', v'⟩ := q
    by_cases hk : k = k'
    · subst hk
      rw [btreeInsert, if_pos rfl] at hp
      rcases List.mem_cons.mp hp with h' | h'
      · exact Or.inl h'
      · exact Or.inr (List.mem_cons_of_mem _ h')
    · by_cases hlt : k.data < k'.data
      · rw [btreeInsert, if_neg hk, if_pos hlt] at hp
        rcases List.mem_cons.mp hp with h' | h'
        · exact Or.inl h'
        · exact Or.inr h'
      · rw [btreeInsert, if_neg hk, if_neg hlt] at hp
        rcases List.mem_cons.mp hp with h' | h'
        · exact Or.inr (h' ▸ List.mem_cons_self _ _)
        · rcases ih h' with h'' | h''
          · exact Or.inl h''
          · exact Or.inr (List.mem_cons_of_mem _ h'')

theorem mem_eventsPush {k : String} {e : Event} {m : List (String × List Event)}
    {p : String × List Event} (hp : p ∈ eventsPush k e m) :
    (p.1 = k ∧ (p.2 = [e] ∨ ∃ es, (k, es) ∈ m ∧ p.2 = es ++ [e])) ∨ p ∈ m := by
  induction m with
  | nil =>
    simp [eventsPush] at hp
    subst hp
    exact Or.inl ⟨rfl, Or.inl rfl⟩
  | cons q rest ih =>
    obtain ⟨k', es⟩ := q
    by_cases hk : k = k'
    · subst hk
      rw [eventsPush, if_pos rfl] at hp
      rcases List.mem_cons.mp hp with h' | h'
      · subst h'
        exact Or.inl ⟨rfl, Or.inr ⟨es, List.mem_cons_self _ _, rfl⟩⟩
      · exact Or.inr (List.mem_cons_of_mem _ h')
    · by_cases hlt : k.data < k'.data
      · rw [eventsPush, if_neg hk, if_pos hlt] at hp
        rcases List.mem_cons.mp hp with h' | h'
        · subst h'
          exact Or.inl ⟨rfl, Or.inl rfl⟩
        · exact Or.inr h'
      · rw [eventsPush, if_neg hk, if_neg hlt] at hp
        rcases List.mem_cons.mp hp with h' | h'
        · exact Or.inr (h' ▸ List.mem_cons_self _ _)
        · rcases ih h' with h'' | h''
          · refine Or.inl ⟨h''.1, ?_⟩
            rcases h''.2 with h3 | ⟨es', hes', h3⟩
            · exact Or.inl h3
            · exact Or.inr ⟨es', List.mem_cons_of_mem _ hes', h3⟩
          · exact Or.inr (List.mem_cons_of_mem _ h'')

theorem functionsWF_btreeInsert {m : List (String × Function)} (f : Function)
    (h : functionsWF m) : functionsWF (btreeInsert f.name f m) := by
  intro p hp
  rcases mem_btreeInsert hp with h' | h'
  · subst h'
    rfl
  · exact h p h'

theorem eventsWF_eventsPush {m : List (String × List Event)} (e : Event)
    (h : eventsWF m) : eventsWF (eventsPush e.name e m) := by
  intro p hp
  rcases mem_eventsPush hp with ⟨h1, h2⟩ | h'
  · rcases h2 with h2 | ⟨es, hes, h2⟩
    · refine ⟨by simp [h2], ?_⟩
      intro x hx
      rw [h2] at hx
      rcases List.mem_singleton.mp hx with rfl
      exact h1 ▸ rfl
    · refine ⟨by simp [h2], ?_⟩
      intro x hx
      rw [h2] at hx
      rcases List.mem_append.mp hx with hx | hx
      · have := (h _ hes).2 x hx
        rw [this, h1]
      · rcases List.mem_singleton.mp hx with rfl
        exact h1 ▸ rfl
  · exact h p h'

theorem ContractWF_applyOperation {c : Contract} (h : ContractWF c) (op : Operation) :
    ContractWF (applyOperation c op) := by
  obtain ⟨h1, h2, h3, h4⟩ := h
  cases op with
  | constructorOp ctor => exact ⟨h1, h2, h3, h4⟩
  | functionOp f => exact ⟨mapSorted_btreeInsert _ _ h1, h2, functionsWF_btreeInsert f h3, h4⟩
  | eventOp e => exact ⟨h1, mapSorted_eventsPush _ _ h2, h3, eventsWF_eventsPush e h4⟩
  | fallbackOp => exact ⟨h1, h2, h3, h4⟩

theorem ContractWF_foldl {c : Contract} (h : ContractWF c) (ops : List Operation) :
    ContractWF (ops.foldl applyOperation c) := by
  induction ops generalizing c with
  | nil => exact h
  | cons op rest ih => exact ih (ContractWF_applyOperation h op)

theorem ContractWF_emptyContract : ContractWF emptyContract := by
  refine ⟨List.Pairwise.nil, List.Pairwise.nil, ?_, ?_⟩ <;> intro p hp <;> cases hp

theorem ContractWF_visit_seq (ops : List Operation) : ContractWF (visit_seq ops) :=
  ContractWF_foldl ContractWF_emptyContract ops

theorem mem_of_btreeGet_eq_some {α : Type} {m : List (String × α)} {n : String} {v : α}
    (h : btreeGet m n = some v) : (n, v) ∈ m := by
  induction m with
  | nil => exact Option.noConfusion h
  | cons p rest ih =>
    obtain ⟨k', v'⟩ := p
    by_cases hn : n = k'
    · rw [btreeGet, if_pos hn] at h
      rcases Option.some_inj.mp h with rfl
      exact hn ▸ List.mem_cons_self _ _
    · rw [btreeGet, if_neg hn] at h
      exact List.mem_cons_of_mem _ (ih h)

theorem getLast?_cons_or {α : Type} (a : α) (l : List α) :
    (a :: l).getLast? = l.getLast?.or (some a) := by
  cases h : l.getLast? with
  | none =>
    rw [List.getLast?_eq_none_iff] at h
    subst h
    rfl
  | some b =>
    rw [List.getLast?_cons, h, Option.or]
    rfl

theorem listOpt_ne_nil {α : Type} {l : List α} (h : l ≠ []) : listOpt l = some l := by
  cases l with
  | nil => exact absurd rfl h
  | cons a t => rfl

theorem fallback_foldl (ops : List Operation) (c : Contract) :
    (ops.foldl applyOperation c).fallback = (c.fallback || ops.any Operation.isFallback) := by
  induction ops generalizing c with
  | nil => simp
  | cons op rest ih =>
    rw [List.foldl_cons, ih]
    cases op <;> simp [applyOperation, Operation.isFallback, Bool.or_assoc]

theorem constructor_foldl (ops : List Operation) (c : Contract) :
    (ops.foldl applyOperation c).constructor =
      ((constructorsOf ops).getLast?).or c.constructor := by
  induction ops generalizing c with
  | nil => simp [constructorsOf]
  | cons op rest ih =>
    rw [List.foldl_cons, ih]
    cases op <;>
      simp [applyOperation, constructorsOf, List.filterMap_cons, getLast?_cons_or,
        Option.or_assoc]

theorem btreeGet_functions_foldl (ops : List Operation) (c : Contract) (n : String) :
    btreeGet (ops.foldl applyOperation c).functions n =
      ((functionsNamed n ops).getLast?).or (btreeGet c.functions n) := by
  induction ops generalizing c with
  | nil => simp [functionsNamed]
  | cons op rest ih =>
    rw [List.foldl_cons, ih]
    cases op with
    | functionOp f =>
      by_cases hf : f.name = n
      · subst hf
        simp [applyOperation, functionsNamed, List.filterMap_cons,
          btreeGet_btreeInsert, getLast?_cons_or, Option.or_assoc]
      · have hnf : ¬ n = f.name := fun h' => hf h'.symm
        simp [applyOperation, functionsNamed, List.filterMap_cons, hf,
          btreeGet_btreeInsert, hnf]
    | constructorOp ct => simp [applyOperation, functionsNamed, List.filterMap_cons]
    | eventOp e => simp [applyOperation, functionsNamed, List.filterMap_cons]
    | fallbackOp => simp [applyOperation, functionsNamed, List.filterMap_cons]

theorem btreeGet_events_foldl (ops : List Operation) {c : Contract} (hs : mapSorted c.events)
    (hw : eventsWF c.events) (n : String) :
    btreeGet (ops.foldl applyOperation c).events n =
      listOpt ((btreeGet c.events n).getD [] ++ eventsNamed n ops) := by
  induction ops generalizing c with
  | nil =>
    rw [List.foldl_nil]
    cases h : btreeGet c.events n with
    | none => simp [eventsNamed, listOpt]
    | some es =>
      have hmem := mem_of_btreeGet_eq_some h
      have hne : es ≠ [] := (hw _ hmem).1
      simp [eventsNamed, listOpt_ne_nil hne]
  | cons op rest ih =>
    rw [List.foldl_cons]
    cases op with
    | eventOp e =>
      have hs' : mapSorted (applyOperation c (.eventOp e)).events :=
        mapSorted_eventsPush _ _ hs
      have hw' : eventsWF (applyOperation c (.eventOp e)).events :=
        eventsWF_eventsPush e hw
      rw [ih hs' hw']
      have hpush : (applyOperation c (.eventOp e)).events = eventsPush e.name e c.events := rfl
      rw [hpush, btreeGet_eventsPush e.name n e hs]
      by_cases he : e.name = n
      · subst he
        rw [if_pos rfl]
        simp [eventsNamed, List.filterMap_cons]
      · have hne : ¬ n = e.name := fun h' => he h'.symm
        rw [if_neg hne]
        simp [eventsNamed, List.filterMap_cons, he]
    | constructorOp ct =>
      rw [ih (show mapSorted (applyOperation c (.constructorOp ct)).events from hs)
          (show eventsWF (applyOperation c (.constructorOp ct)).events from hw)]
      simp [applyOperation, eventsNamed, List.filterMap_cons]
    | functionOp f =>
      rw [ih (show mapSorted (applyOperation c (.functionOp f)).events from hs)
          (show eventsWF (applyOperation c (.functionOp f)).events from hw)]
      simp [applyOperation, eventsNamed, List.filterMap_cons]
    | fallbackOp =>
      rw [ih (show mapSorted (applyOperation c .fallbackOp).events from hs)
          (show eventsWF (applyOperation c .fallbackOp).events from hw)]
      simp [applyOperation, eventsNamed, List.filterMap_cons]

theorem mem_keys_functions_foldl (ops : List Operation) (c : Contract) (n : String) :
    n ∈ keysOf (ops.foldl applyOperation c).functions ↔
      n ∈ keysOf c.functions ∨ n ∈ functionNames ops := by
  induction ops generalizing c with
  | nil => simp [functionNames]
  | cons op rest ih =>
    rw [List.foldl_cons, ih]
    cases op with
    | functionOp f =>
      have : (applyOperation c (.functionOp f)).functions = btreeInsert f.name f c.functions :=
        rfl
      rw [this, mem_keys_btreeInsert]
      simp only [functionNames, List.filterMap_cons]
      simp [List.mem_cons]
      tauto
    | constructorOp ct => simp [applyOperation, functionNames, List.filterMap_cons]
    | eventOp e => simp [applyOperation, functionNames, List.filterMap_cons]
    | fallbackOp => simp [applyOperation, functionNames, List.filterMap_cons]

theorem length_flatten_eventsPush (k : String) (e : Event) (m : List (String × List Event)) :
    ((eventsPush k e m).map Prod.snd).flatten.length = (m.map Prod.snd).flatten.length + 1 := by
  induction m with
  | nil => rfl
  | cons p rest ih =>
    obtain ⟨k', es⟩ := p
    by_cases hk : k = k'
    · rw [eventsPush, if_pos hk]
      simp
      omega
    · by_cases hlt : k.data < k'.data
      · rw [eventsPush, if_neg hk, if_pos hlt]
        simp
      · rw [eventsPush, if_neg hk, if_neg hlt]
        simp only [List.map_cons, List.flatten_cons, List.length_append] at ih ⊢
        omega

theorem events_total_foldl (ops : List Operation) (c : Contract) :
    ((ops.foldl applyOperation c).events.map Prod.snd).flatten.length =
      (c.events.map Prod.snd).flatten.length + (allEvents ops).length := by
  induction ops generalizing c with
  | nil => simp [allEvents]
  | cons op rest ih =>
    rw [List.foldl_cons, ih]
    cases op with
    | eventOp e =>
      have : (applyOperation c (.eventOp e)).events = eventsPush e.name e c.events := rfl
      rw [this, length_flatten_eventsPush]
      simp only [allEvents, List.filterMap_cons, List.length_cons]
      omega
    | constructorOp ct => simp [applyOperation, allEvents, List.filterMap_cons]
    | functionOp f => simp [applyOperation, allEvents, List.filterMap_cons]
    | fallbackOp => simp [applyOperation, allEvents, List.filterMap_cons]

theorem not_mem_keys_of_sorted_head {α : Type} {k : String} {v : α} {rest : List (String × α)}
    (h : mapSorted ((k, v) :: rest)) : k ∉ keysOf rest := by
  rw [mapSorted, List.pairwise_cons] at h
  intro hmem
  obtain ⟨q, hq, hq1⟩ := List.mem_map.mp hmem
  have := h.1 q hq
  rw [hq1] at this
  exact lt_irrefl _ this

theorem keysOf_nodup {α : Type} {m : List (String × α)} (h : mapSorted m) :
    (keysOf m).Nodup := by
  rw [keysOf]
  refine List.pairwise_map.mpr (h.imp ?_)
  intro p q hlt heq
  rw [heq] at hlt
  exact lt_irrefl _ hlt

theorem functionsIter_filter {m : List (String × Function)} (hs : mapSorted m)
    (hw : functionsWF m) (n : String) :
    (m.map Prod.snd).filter (fun f => decide (Function.name f = n)) =
      (btreeGet m n).toList := by
  induction m with
  | nil => rfl
  | cons p rest ih =>
    obtain ⟨k, f⟩ := p
    have hf : Function.name f = k := hw _ (List.mem_cons_self _ _)
    have hrest : mapSorted rest := by
      rw [mapSorted, List.pairwise_cons] at hs
      exact hs.2
    have hwrest : functionsWF rest := fun q hq => hw q (List.mem_cons_of_mem _ hq)
    rw [List.map_cons, List.filter_cons]
    by_cases hn : n = k
    · subst hn
      have hnone : btreeGet rest n = none :=
        btreeGet_eq_none_of_not_mem (not_mem_keys_of_sorted_head hs)
      rw [if_pos (by simp [hf]), ih hrest hwrest, hnone, btreeGet, if_pos rfl]
      rfl
    · have hfn : ¬ (Function.name f = n) := fun h' => hn ((hf ▸ h').symm)
      rw [if_neg (by simp [hfn]), ih hrest hwrest, btreeGet, if_neg hn]

theorem eventsIter_filter {m : List (String × List Event)} (hs : mapSorted m)
    (hw : eventsWF m) (n : String) :
    ((m.map Prod.snd).flatten).filter (fun e => decide (Event.name e = n)) =
      (btreeGet m n).getD [] := by
  induction m with
  | nil => rfl
  | cons p rest ih =>
    obtain ⟨k, es⟩ := p
    have hnames : ∀ e ∈ es, Event.name e = k := (hw _ (List.mem_cons_self _ _)).2
    have hrest : mapSorted rest := by
      rw [mapSorted, List.pairwise_cons] at hs
      exact hs.2
    have hwrest : eventsWF rest := fun q hq => hw q (List.mem_cons_of_mem _ hq)
    rw [List.map_cons, List.flatten_cons, List.filter_append]
    by_cases hn : n = k
    · subst hn
      have hnone : btreeGet rest n = none :=
        btreeGet_eq_none_of_not_mem (not_mem_keys_of_sorted_head hs)
      have hes : es.filter (fun e => decide (Event.name e = n)) = es :=
        List.filter_eq_self.mpr fun e he => by simp [hnames e he]
      rw [hes, ih hrest hwrest, hnone, btreeGet, if_pos rfl]
      simp
    · have hes : es.filter (fun e => decide (Event.name e = n)) = [] :=
        List.filter_eq_nil_iff.mpr fun e he => by
          simp only [decide_eq_true_eq]
          intro h'
          exact hn ((hnames e he ▸ h').symm)
      rw [hes, ih hrest hwrest, btreeGet, if_neg hn]
      rfl

theorem functionsIter_sorted {m : List (String × Function)} (hs : mapSorted m)
    (hw : functionsWF m) :
    (m.map Prod.snd).Pairwise fun f g => Function.name f < Function.name g := by
  refine List.pairwise_map.mpr (hs.imp_of_mem ?_)
  intro p q hp hq hlt
  rw [hw p hp, hw q hq]
  exact String.lt_iff_toList_lt.mpr hlt

theorem eventsIter_sorted {m : List (String × List Event)} (hs : mapSorted m)
    (hw : eventsWF m) :
    ((m.map Prod.snd).flatten).Pairwise fun e1 e2 => Event.name e1 ≤ Event.name e2 := by
  rw [List.pairwise_flatten]
  constructor
  · intro l hl
    obtain ⟨p, hp, hpl⟩ := List.mem_map.mp hl
    refine List.pairwise_of_forall_mem_list ?_
    intro a ha b hb
    rw [← hpl] at ha hb
    rw [(hw p hp).2 a ha, (hw p hp).2 b hb]
  · refine List.pairwise_map.mpr (hs.imp_of_mem ?_)
    intro p q hp hq hlt x hx y hy
    rw [(hw p hp).2 x hx, (hw q hq).2 y hy]
    exact le_of_lt (String.lt_iff_toList_lt.mpr hlt)

theorem filterMap_getLast?_of_last {α β : Type} {l : List α} {p : α → Option β} {j : Nat}
    {a : α} {b : β} (hj : l[j]? = some a) (hpa : p a = some b)
    (hafter : ∀ k x, j < k → l[k]? = some x → p x = none) :
    (l.filterMap p).getLast? = some b := by
  conv_lhs => rw [← List.take_append_drop (j + 1) l]
  rw [List.filterMap_append]
  have hdrop : (l.drop (j + 1)).filterMap p = [] := by
    rw [List.filterMap_eq_nil_iff]
    intro x hx
    obtain ⟨i, hi⟩ := List.mem_iff_getElem?.mp hx
    rw [List.getElem?_drop] at hi
    exact hafter (j + 1 + i) x (by omega) hi
  rw [hdrop, List.append_nil, List.take_succ, hj]
  rw [show (some a).toList = [a] from rfl, List.filterMap_append]
  have hone : List.filterMap p [a] = [b] := by
    rw [List.filterMap_cons, hpa]
    rfl
  rw [hone, List.getLast?_concat]

theorem filterMap_eq_single {α β : Type} {p : α → Option β} :
    ∀ {l : List α} {j : Nat} {b : α} {b' : β}, l[j]? = some b → p b = some b' →
      (∀ k x, l[k]? = some x → p x ≠ none → k = j) → l.filterMap p = [b'] := by
  intro l
  induction l with
  | nil =>
    intro j b b' hj
    rw [List.getElem?_nil] at hj
    exact absurd hj (by simp)
  | cons x t ih =>
    intro j b b' hj hpb honly
    cases j with
    | zero =>
      rw [List.getElem?_cons_zero] at hj
      rcases Option.some_inj.mp hj with rfl
      rw [List.filterMap_cons, hpb]
      have ht : t.filterMap p = [] := by
        rw [List.filterMap_eq_nil_iff]
        intro y hy
        obtain ⟨k, hk⟩ := List.mem_iff_getElem?.mp hy
        by_contra hne
        have := honly (k + 1) y (by rw [List.getElem?_cons_succ]; exact hk) hne
        exact Nat.succ_ne_zero k this
      rw [ht]
    | succ j' =>
      rw [List.getElem?_cons_succ] at hj
      have hx : p x = none := by
        by_contra hne
        have := honly 0 x List.getElem?_cons_zero hne
        exact Nat.succ_ne_zero j' this.symm
      rw [List.filterMap_cons, hx]
      refine ih hj hpb ?_
      intro k y hk hne
      have := honly (k + 1) y (by rw [List.getElem?_cons_succ]; exact hk) hne
      omega

theorem filterMap_eq_pair {α β : Type} {p : α → Option β} :
    ∀ {l : List α} {i j : Nat} {a b : α} {a' b' : β}, i < j →
      l[i]? = some a → l[j]? = some b → p a = some a' → p b = some b' →
      (∀ k x, l[k]? = some x → p x ≠ none → k = i ∨ k = j) →
      l.filterMap p = [a', b'] := by
  intro l
  induction l with
  | nil =>
    intro i j a b a' b' hij hi
    rw [List.getElem?_nil] at hi
    exact absurd hi (by simp)
  | cons x t ih =>
    intro i j a b a' b' hij hi hj hpa hpb honly
    cases i with
    | zero =>
      rw [List.getElem?_cons_zero] at hi
      rcases Option.some_inj.mp hi with rfl
      obtain ⟨j', rfl⟩ : ∃ j', j = j' + 1 := ⟨j - 1, by omega⟩
      rw [List.getElem?_cons_succ] at hj
      rw [List.filterMap_cons, hpa]
      have ht : t.filterMap p = [b'] := by
        refine filterMap_eq_single hj hpb ?_
        intro k y hk hne
        have := honly (k + 1) y (by rw [List.getElem?_cons_succ]; exact hk) hne
        omega
      rw [ht]
    | succ i' =>
      obtain ⟨j', rfl⟩ : ∃ j', j = j' + 1 := ⟨j - 1, by omega⟩
      rw [List.getElem?_cons_succ] at hi hj
      have hx : p x = none := by
        by_contra hne
        rcases honly 0 x List.getElem?_cons_zero hne with h0 | h0
        · exact Nat.succ_ne_zero i' h0.symm
        · exact Nat.succ_ne_zero j' h0.symm
      rw [List.filterMap_cons, hx]
      refine ih (by omega) hi hj hpa hpb ?_
      intro k y hk hne
      have := honly (k + 1) y (by rw [List.getElem?_cons_succ]; exact hk) hne
      omega

theorem mem_functionNames_iff (n : String) (ops : List Operation) :
    n ∈ functionNames ops ↔ functionsNamed n ops ≠ [] := by
  rw [functionNames, functionsNamed]
  constructor
  · intro h
    obtain ⟨op, hop, hsome⟩ := List.mem_filterMap.mp h
    intro hnil
    have := List.filterMap_eq_nil_iff.mp hnil op hop
    cases op with
    | functionOp f =>
      have hname : Function.name f = n := by
        simpa using hsome
      have this2 : (if Function.name f = n then some f else none) = none := this
      rw [if_pos hname] at this2
      exact Option.noConfusion this2
    | constructorOp ct => exact Option.noConfusion hsome
    | eventOp e => exact Option.noConfusion hsome
    | fallbackOp => exact Option.noConfusion hsome
  · intro h
    rcases hx : (ops.filterMap fun op =>
        match op with
        | .functionOp f => if Function.name f = n then some f else none
        | _ => none) with _ | ⟨f, t⟩
    · exact absurd hx h
    · have hf : f ∈ ops.filterMap fun op =>
          match op with
          | .functionOp f => if Function.name f = n then some f else none
          | _ => none := by
        rw [hx]
        exact List.mem_cons_self _ _
      obtain ⟨op, hop, hsome⟩ := List.mem_filterMap.mp hf
      refine List.mem_filterMap.mpr ⟨op, hop, ?_⟩
      cases op with
      | functionOp g =>
        have hsome2 : (if Function.name g = n then some g else none) = some f := hsome
        by_cases hg : Function.name g = n
        · rw [if_pos hg] at hsome2
          rcases Option.some_inj.mp hsome2 with rfl
          simp [hg]
        · rw [if_neg hg] at hsome2
          exact Option.noConfusion hsome2
      | constructorOp ct => exact Option.noConfusion hsome
      | eventOp e => exact Option.noConfusion hsome
      | fallbackOp => exact Option.noConfusion hsome

theorem mem_eventNames_iff (n : String) (ops : List Operation) :
    n ∈ eventNames ops ↔ eventsNamed n ops ≠ [] := by
  rw [eventNames, eventsNamed]
  constructor
  · intro h
    obtain ⟨op, hop, hsome⟩ := List.mem_filterMap.mp h
    intro hnil
    have := List.filterMap_eq_nil_iff.mp hnil op hop
    cases op with
    | eventOp e =>
      have hname : Event.name e = n := by
        simpa using hsome
      have this2 : (if Event.name e = n then some e else none) = none := this
      rw [if_pos hname] at this2
      exact Option.noConfusion this2
    | constructorOp ct => exact Option.noConfusion hsome
    | functionOp f => exact Option.noConfusion hsome
    | fallbackOp => exact Option.noConfusion hsome
  · intro h
    rcases hx : (ops.filterMap fun op =>
        match op with
        | .eventOp e => if Event.name e = n then some e else none
        | _ => none) with _ | ⟨e, t⟩
    · exact absurd hx h
    · have he : e ∈ ops.filterMap fun op =>
          match op with
          | .eventOp e => if Event.name e = n then some e else none
          | _ => none := by
        rw [hx]
        exact List.mem_cons_self _ _
      obtain ⟨op, hop, hsome⟩ := List.mem_filterMap.mp he
      refine List.mem_filterMap.mpr ⟨op, hop, ?_⟩
      cases op with
      | eventOp e' =>
        have hsome2 : (if Event.name e' = n then some e' else none) = some e := hsome
        by_cases hg : Event.name e' = n
        · rw [if_pos hg] at hsome2
          rcases Option.some_inj.mp hsome2 with rfl
          simp [hg]
        · rw [if_neg hg] at hsome2
          exact Option.noConfusion hsome2
      | constructorOp ct => exact Option.noConfusion hsome
      | functionOp f => exact Option.noConfusion hsome
      | fallbackOp => exact Option.noConfusion hsome

theorem btreeGet_functions_visit_seq (ops : List Operation) (n : String) :
    btreeGet (visit_seq ops).functions n = (functionsNamed n ops).getLast? := by
  rw [visit_seq, btreeGet_functions_foldl]
  simp [emptyContract, btreeGet, Option.or_none]

theorem btreeGet_events_visit_seq (ops : List Operation) (n : String) :
    btreeGet (visit_seq ops).events n = listOpt (eventsNamed n ops) := by
  rw [visit_seq,
    btreeGet_events_foldl ops ContractWF_emptyContract.2.1 ContractWF_emptyContract.2.2.2 n]
  rw [show btreeGet emptyContract.events n = none from rfl]
  rw [show (none : Option (List Event)).getD [] = [] from rfl, List.nil_append]

/-- C8: building from the empty operation sequence gives the empty contract:
no constructor, empty function and event maps, `fallback() = false`; the
fold's initial state is exactly this empty contract. -/
theorem C8_empty_build :
    visit_seq [] = emptyContract ∧
    emptyContract.constructor = none ∧
    emptyContract.functions = [] ∧
    emptyContract.events = [] ∧
    Contract.getFallback emptyContract = false :=
  ⟨rfl, rfl, rfl, rfl, rfl⟩

/-- C3: the built contract's `constructor()` is the last `Constructor`
operation of the stream, and absent when the stream holds none
(`getLast?` of the stream's constructor entries is exactly that). -/
theorem C3_constructor_last (ops : List Operation) :
    Contract.getConstructor (visit_seq ops) = (constructorsOf ops).getLast? := by
  rw [Contract.getConstructor, visit_seq, constructor_foldl]
  simp [emptyContract, Option.or_none]

/-- C4: `fallback()` is true iff a `Fallback` operation occurs in the input,
and appending a second `Fallback` leaves the result unchanged. -/
theorem C4_fallback_presence (ops : List Operation) :
    (Contract.getFallback (visit_seq ops) = true ↔ Operation.fallbackOp ∈ ops) ∧
    Contract.getFallback (visit_seq (ops ++ [Operation.fallbackOp])) =
      Contract.getFallback (visit_seq (ops ++ [Operation.fallbackOp, Operation.fallbackOp])) := by
  have hany : ∀ l : List Operation,
      (l.any Operation.isFallback = true ↔ Operation.fallbackOp ∈ l) := by
    intro l
    rw [List.any_eq_true]
    constructor
    · rintro ⟨x, hx, hfx⟩
      cases x with
      | fallbackOp => exact hx
      | constructorOp ct => exact absurd hfx (by simp [Operation.isFallback])
      | functionOp f => exact absurd hfx (by simp [Operation.isFallback])
      | eventOp e => exact absurd hfx (by simp [Operation.isFallback])
    · intro h
      exact ⟨_, h, rfl⟩
  refine ⟨?_, ?_⟩
  · rw [Contract.getFallback, visit_seq, fallback_foldl]
    rw [show emptyContract.fallback = false from rfl, Bool.false_or]
    exact hany ops
  · rw [Contract.getFallback, Contract.getFallback, visit_seq, visit_seq,
      fallback_foldl, fallback_foldl]
    simp [Operation.isFallback]

/-- C10: each step of the fold touches only the field of its operation's
variant; the other three fields of the contract are left unchanged. -/
theorem C10_frame (c : Contract) (ctor : Constructor) (f : Function) (e : Event) :
    ((applyOperation c (.constructorOp ctor)).functions = c.functions ∧
      (applyOperation c (.constructorOp ctor)).events = c.events ∧
      (applyOperation c (.constructorOp ctor)).fallback = c.fallback) ∧
    ((applyOperation c (.functionOp f)).constructor = c.constructor ∧
      (applyOperation c (.functionOp f)).events = c.events ∧
      (applyOperation c (.functionOp f)).fallback = c.fallback) ∧
    ((applyOperation c (.eventOp e)).constructor = c.constructor ∧
      (applyOperation c (.eventOp e)).functions = c.functions ∧
      (applyOperation c (.eventOp e)).fallback = c.fallback) ∧
    ((applyOperation c .fallbackOp).constructor = c.constructor ∧
      (applyOperation c .fallbackOp).functions = c.functions ∧
      (applyOperation c .fallbackOp).events = c.events) :=
  ⟨⟨rfl, rfl, rfl⟩, ⟨rfl, rfl, rfl⟩, ⟨rfl, rfl, rfl⟩, ⟨rfl, rfl, rfl⟩⟩

theorem listOpt_getD {α : Type} (l : List α) : (listOpt l).getD [] = l := by
  cases l <;> rfl

theorem function_visit_seq (ops : List Operation) (n : String) :
    Contract.function (visit_seq ops) n =
      match (functionsNamed n ops).getLast? with
      | some f => .ok f
      | none => .error "Invalid name" := by
  rw [Contract.function, btreeGet_functions_visit_seq]

theorem event_visit_seq (ops : List Operation) (n : String) :
    Contract.event (visit_seq ops) n =
      match (eventsNamed n ops).head? with
      | some e => .ok e
      | none => .error "Invalid name" := by
  rw [Contract.event, btreeGet_events_visit_seq]
  cases eventsNamed n ops <;> rfl

theorem events_by_name_visit_seq (ops : List Operation) (n : String) :
    Contract.events_by_name (visit_seq ops) n =
      match eventsNamed n ops with
      | [] => .error "Invalid name"
      | l => .ok l := by
  rw [Contract.events_by_name, btreeGet_events_visit_seq]
  cases eventsNamed n ops <;> rfl

/-- C6: `functions().count()` equals the number of distinct function names of
the input, and `events().count()` equals the total number of event entries of
the input (overloads counted, names not deduplicated). -/
theorem C6_iteration_counts (ops : List Operation) :
    (Contract.functionsIter (visit_seq ops)).length = (functionNames ops).dedup.length ∧
    (Contract.eventsIter (visit_seq ops)).length = (allEvents ops).length := by
  constructor
  · have hwf := ContractWF_visit_seq ops
    have hnodup : (keysOf (visit_seq ops).functions).Nodup := keysOf_nodup hwf.1
    have hmem : ∀ n, n ∈ keysOf (visit_seq ops).functions ↔ n ∈ functionNames ops := by
      intro n
      rw [visit_seq, mem_keys_functions_foldl]
      rw [show keysOf emptyContract.functions = [] from rfl]
      simp
    have hlen1 : (Contract.functionsIter (visit_seq ops)).length
        = (keysOf (visit_seq ops).functions).length := by
      rw [Contract.functionsIter, keysOf, List.length_map, List.length_map]
    rw [hlen1]
    calc (keysOf (visit_seq ops).functions).length
        = (keysOf (visit_seq ops).functions).toFinset.card :=
          (List.toFinset_card_of_nodup hnodup).symm
      _ = (functionNames ops).dedup.toFinset.card := by
          congr 1
          ext x
          simp only [List.mem_toFinset, List.mem_dedup]
          exact hmem x
      _ = (functionNames ops).dedup.length :=
          List.toFinset_card_of_nodup (List.nodup_dedup _)
  · rw [Contract.eventsIter, visit_seq, events_total_foldl]
    rw [show ((emptyContract.events.map Prod.snd).flatten.length) = 0 from rfl]
    omega

/-- C7: `functions()` yields the stored functions in strictly name-sorted
order; `events()` yields the stored events with nondecreasing names (the
per-name buckets flattened in sorted key order) and, restricted to any one
name, exactly that name's events in stream (insertion) order. -/
theorem C7_iteration_order (ops : List Operation) :
    (Contract.functionsIter (visit_seq ops)).Pairwise
      (fun f g => Function.name f < Function.name g) ∧
    (Contract.eventsIter (visit_seq ops)).Pairwise
      (fun e1 e2 => Event.name e1 ≤ Event.name e2) ∧
    (∀ n, (Contract.eventsIter (visit_seq ops)).filter
        (fun e => decide (Event.name e = n)) = eventsNamed n ops) := by
  obtain ⟨h1, h2, h3, h4⟩ := ContractWF_visit_seq ops
  refine ⟨functionsIter_sorted h1 h3, eventsIter_sorted h2 h4, ?_⟩
  intro n
  rw [Contract.eventsIter, eventsIter_filter h2 h4, btreeGet_events_visit_seq,
    listOpt_getD]

/-- C9: every key of the built events map holds a non-empty bucket, so
`event(name)` succeeds exactly when `events_by_name(name)` succeeds, and when
both succeed `event(name)` is the head of `events_by_name(name)`. -/
theorem C9_event_head (ops : List Operation) (n : String) :
    (∀ p ∈ (visit_seq ops).events, p.2 ≠ []) ∧
    ((∃ e, Contract.event (visit_seq ops) n = .ok e) ↔
      (∃ es, Contract.events_by_name (visit_seq ops) n = .ok es)) ∧
    (∀ e es, Contract.event (visit_seq ops) n = .ok e →
      Contract.events_by_name (visit_seq ops) n = .ok es → es.head? = some e) := by
  have hwf := ContractWF_visit_seq ops
  refine ⟨fun p hp => (hwf.2.2.2 p hp).1, ?_, ?_⟩
  · rw [event_visit_seq, events_by_name_visit_seq]
    cases eventsNamed n ops with
    | nil =>
      constructor
      · rintro ⟨e, he⟩
        exact Except.noConfusion he
      · rintro ⟨es, hes⟩
        exact Except.noConfusion hes
    | cons e t =>
      exact ⟨fun _ => ⟨e :: t, rfl⟩, fun _ => ⟨e, rfl⟩⟩
  · rw [event_visit_seq, events_by_name_visit_seq]
    cases eventsNamed n ops with
    | nil =>
      intro e es he
      exact absurd he (fun h => Except.noConfusion h)
    | cons e0 t =>
      intro e es he hes
      have he' : e0 = e := by
        injection he
      have hes' : e0 :: t = es := by
        injection hes
      rw [← hes', ← he']
      rfl

/-- C5: a name that was never stored yields the recoverable "Invalid name"
failure from `function`, `event` and `events_by_name`, and no lookup ever
fails with any other error. -/
theorem C5_invalid_name (ops : List Operation) (n : String)
    (hf : n ∉ functionNames ops) (he : n ∉ eventNames ops) :
    Contract.function (visit_seq ops) n = .error "Invalid name" ∧
    Contract.event (visit_seq ops) n = .error "Invalid name" ∧
    Contract.events_by_name (visit_seq ops) n = .error "Invalid name" ∧
    (∀ m s, Contract.function (visit_seq ops) m = .error s → s = "Invalid name") ∧
    (∀ m s, Contract.event (visit_seq ops) m = .error s → s = "Invalid name") ∧
    (∀ m s, Contract.events_by_name (visit_seq ops) m = .error s → s = "Invalid name") := by
  have hf' : functionsNamed n ops = [] := by
    by_contra hne
    exact hf ((mem_functionNames_iff n ops).mpr hne)
  have he' : eventsNamed n ops = [] := by
    by_contra hne
    exact he ((mem_eventNames_iff n ops).mpr hne)
  refine ⟨?_, ?_, ?_, ?_, ?_, ?_⟩
  · rw [function_visit_seq, hf']
    rfl
  · rw [event_visit_seq, he']
    rfl
  · rw [events_by_name_visit_seq, he']
  · intro m s hs
    rw [function_visit_seq] at hs
    rcases hls : (functionsNamed m ops).getLast? with _ | f
    · rw [hls] at hs
      have h2 : (Except.error "Invalid name" : Except String Function) = Except.error s := hs
      injection h2 with h3
      exact h3.symm
    · rw [hls] at hs
      have h2 : (Except.ok f : Except String Function) = Except.error s := hs
      exact Except.noConfusion h2
  · intro m s hs
    rw [event_visit_seq] at hs
    rcases hls : (eventsNamed m ops).head? with _ | e
    · rw [hls] at hs
      have h2 : (Except.error "Invalid name" : Except String Event) = Except.error s := hs
      injection h2 with h3
      exact h3.symm
    · rw [hls] at hs
      have h2 : (Except.ok e : Except String Event) = Except.error s := hs
      exact Except.noConfusion h2
  · intro m s hs
    rw [events_by_name_visit_seq] at hs
    rcases hls : eventsNamed m ops with _ | ⟨e, t⟩
    · rw [hls] at hs
      have h2 : (Except.error "Invalid name" : Except String (List Event)) = Except.error s := hs
      injection h2 with h3
      exact h3.symm
    · rw [hls] at hs
      have h2 : (Except.ok (e :: t) : Except String (List Event)) = Except.error s := hs
      exact Except.noConfusion h2

theorem C5_invalid_name_witness :
    ("nope" ∉ functionNames demoMissingOps) ∧ ("nope" ∉ eventNames demoMissingOps) ∧
    (Contract.function (visit_seq demoMissingOps) "nope" = .error "Invalid name" ∧
      Contract.event (visit_seq demoMissingOps) "nope" = .error "Invalid name" ∧
      Contract.events_by_name (visit_seq demoMissingOps) "nope" = .error "Invalid name" ∧
      (∀ m s, Contract.function (visit_seq demoMissingOps) m = .error s →
        s = "Invalid name") ∧
      (∀ m s, Contract.event (visit_seq demoMissingOps) m = .error s →
        s = "Invalid name") ∧
      (∀ m s, Contract.events_by_name (visit_seq demoMissingOps) m = .error s →
        s = "Invalid name")) :=
  ⟨by decide, by decide, C5_invalid_name demoMissingOps "nope" (by decide) (by decide)⟩

/-- C1: if position `j` holds a `Function` entry and no later entry carries
the same name, then `function(name)` on the built contract returns entry `j`
— the later entry has overwritten the earlier entry `i` of the same name —
and the `functions()` iteration holds exactly one entry of that name. -/
theorem C1_function_overwrite (ops : List Operation) (i j : Nat) (f g : Function)
    (hij : i < j) (hi : ops[i]? = some (.functionOp f)) (hj : ops[j]? = some (.functionOp g))
    (hname : Function.name f = Function.name g)
    (hlast : ∀ k h, j < k → ops[k]? = some (.functionOp h) →
      Function.name h ≠ Function.name g) :
    Contract.function (visit_seq ops) (Function.name g) = .ok g ∧
    ((Contract.functionsIter (visit_seq ops)).filter
        (fun x => decide (Function.name x = Function.name g))).length = 1 := by
  have hlastnamed : (functionsNamed (Function.name g) ops).getLast? = some g := by
    rw [functionsNamed]
    refine filterMap_getLast?_of_last hj ?_ ?_
    · simp
    · intro k x hk hkx
      cases x with
      | functionOp h => exact if_neg (hlast k h hk hkx)
      | constructorOp ct => rfl
      | eventOp e => rfl
      | fallbackOp => rfl
  constructor
  · rw [function_visit_seq, hlastnamed]
  · have hwf := ContractWF_visit_seq ops
    rw [Contract.functionsIter, functionsIter_filter hwf.1 hwf.2.2.1,
      btreeGet_functions_visit_seq, hlastnamed]
    rfl

theorem C1_function_overwrite_witness :
    (0 < 1) ∧
    demoFnOps[0]? = some (.functionOp ⟨"transfer", 0⟩) ∧
    demoFnOps[1]? = some (.functionOp ⟨"transfer", 1⟩) ∧
    (Contract.function (visit_seq demoFnOps)
        (Function.name (⟨"transfer", 1⟩ : Function)) = .ok ⟨"transfer", 1⟩ ∧
      ((Contract.functionsIter (visit_seq demoFnOps)).filter
          (fun x => decide (Function.name x =
            Function.name (⟨"transfer", 1⟩ : Function)))).length = 1) :=
  ⟨by decide, by decide, by decide,
    C1_function_overwrite demoFnOps 0 1 ⟨"transfer", 0⟩ ⟨"transfer", 1⟩ (by decide)
      (by decide) (by decide) (by decide)
      (fun k h hk hop => by
        have hnone : demoFnOps[k]? = none := by
          apply List.getElem?_eq_none
          have hlen : demoFnOps.length = 2 := rfl
          omega
        rw [hnone] at hop
        exact Option.noConfusion hop)⟩

/-- C2: if positions `i < j` hold the only two `Event` entries of a given
name, then `events_by_name(name)` returns both in input order and
`event(name)` returns the one from position `i`. -/
theorem C2_event_overloads (ops : List Operation) (i j : Nat) (e1 e2 : Event)
    (hij : i < j) (hi : ops[i]? = some (.eventOp e1)) (hj : ops[j]? = some (.eventOp e2))
    (hname : Event.name e1 = Event.name e2)
    (honly : ∀ k e, ops[k]? = some (.eventOp e) → Event.name e = Event.name e1 →
      k = i ∨ k = j) :
    Contract.events_by_name (visit_seq ops) (Event.name e1) = .ok [e1, e2] ∧
    Contract.event (visit_seq ops) (Event.name e1) = .ok e1 := by
  have hpair : eventsNamed (Event.name e1) ops = [e1, e2] := by
    rw [eventsNamed]
    refine filterMap_eq_pair hij hi hj ?_ ?_ ?_
    · simp
    · simp [hname.symm]
    · intro k x hk hne
      cases x with
      | eventOp e =>
        by_cases hen : Event.name e = Event.name e1
        · exact honly k e hk hen
        · exact absurd (if_neg hen) hne
      | constructorOp ct => exact absurd rfl hne
      | functionOp fn => exact absurd rfl hne
      | fallbackOp => exact absurd rfl hne
  constructor
  · rw [events_by_name_visit_seq, hpair]
  · rw [event_visit_seq, hpair]
    rfl

theorem C2_event_overloads_witness :
    (0 < 1) ∧
    demoEvOps[0]? = some (.eventOp ⟨"Transfer", 0⟩) ∧
    demoEvOps[1]? = some (.eventOp ⟨"Transfer", 1⟩) ∧
    (Contract.events_by_name (visit_seq demoEvOps)
        (Event.name (⟨"Transfer", 0⟩ : Event)) = .ok [⟨"Transfer", 0⟩, ⟨"Transfer", 1⟩] ∧
      Contract.event (visit_seq demoEvOps)
        (Event.name (⟨"Transfer", 0⟩ : Event)) = .ok ⟨"Transfer", 0⟩) :=
  ⟨by decide, by decide, by decide,
    C2_event_overloads demoEvOps 0 1 ⟨"Transfer", 0⟩ ⟨"Transfer", 1⟩ (by decide) (by decide)
      (by decide) (by decide)
      (fun k e hk hne => by
        match k with
        | 0 => exact Or.inl rfl
        | 1 => exact Or.inr rfl
        | (m + 2) =>
          simp only [demoEvOps, List.getElem?_cons_succ, List.getElem?_nil] at hk
          exact Option.noConfusion hk)⟩

example : visit_seq [] = emptyContract := by decide
example :
    (visit_seq [.functionOp ⟨"a", 0⟩, .functionOp ⟨"a", 1⟩]).function "a" =
      .ok ⟨"a", 1⟩ := rfl
example :
    (visit_seq [.eventOp ⟨"b", 0⟩, .eventOp ⟨"b", 1⟩]).events_by_name "b" =
      .ok [⟨"b", 0⟩, ⟨"b", 1⟩] := rfl
example :
    (visit_seq [.eventOp ⟨"b", 0⟩, .eventOp ⟨"a", 1⟩]).eventsIter =
      [⟨"a", 1⟩, ⟨"b", 0⟩] := by decide

end EthAbi
